import Mathlib

/-!
# Zero-Trust Redactor — verification of the detection/fusion/redaction engine

A shallow embedding of the entity-detection fusion and redaction-matching
engine of the Zero-Trust Redactor repository, together with theorems that
settle the frozen specification claims.

JavaScript strings are modelled as `List Char` (`JStr`).  JavaScript string
primitives used by the source (`toLowerCase`, `trim`, `replace(/\s+/g,' ')`,
`indexOf`, `split`, `join`, `startsWith`, `includes`, `substring`) are
translated to explicit executable functions below.  `Char.toLower` stands in
for JS `toLowerCase` (the source only ever compares ASCII data).
JS `Set`/`Map` insertion-order semantics are modelled with lists that keep
first occurrences.
-/

/-- JavaScript string, modelled as a list of characters. -/
abbrev JStr := List Char

/-- Coerce a Lean string literal to the `JStr` model. -/
def js (s : String) : JStr := s.data

/-- JS whitespace (the characters relevant to this code base:
space, tab, newline, carriage return, vertical tab, form feed). -/
def isJsWs (c : Char) : Bool :=
  c = ' ' || c = '\t' || c = '\n' || c = '\r' || c = Char.ofNat 11 || c = Char.ofNat 12

/-- JS `String.prototype.toLowerCase` (ASCII fragment). -/
def toLowerJ (s : JStr) : JStr := s.map Char.toLower

/-- JS `String.prototype.trim`: drop leading and trailing whitespace. -/
def jsTrim (s : JStr) : JStr :=
  ((s.dropWhile isJsWs).reverse.dropWhile isJsWs).reverse

/-- Worker for `collapseWs`: `prevWs` records whether the previous character
was whitespace (in which case the current run already emitted its space). -/
def collapseGo (prevWs : Bool) : JStr → JStr
  | [] => []
  | c :: rest =>
    if isJsWs c then
      (if prevWs then [] else [' ']) ++ collapseGo true rest
    else c :: collapseGo false rest

/-- JS `s.replace(/\s+/g, ' ')`: collapse every whitespace run to one space. -/
def collapseWs (s : JStr) : JStr := collapseGo false s

/-- Does `pat` occur in `s` starting at index `i`?  (JS `indexOf` hit test.) -/
def matchesAt (pat s : JStr) (i : Nat) : Bool :=
  decide ((s.drop i).take pat.length = pat)

/-- All indices at which `pat` occurs in `s` (ascending). -/
def hitIndices (pat s : JStr) : List Nat :=
  (List.range (s.length + 1)).filter (fun i => matchesAt pat s i)

/-- JS `s.includes(pat)`. -/
def includesJ (s pat : JStr) : Bool := decide (hitIndices pat s ≠ [])

/-- JS `s.startsWith(pat)`. -/
def startsWithJ (s pat : JStr) : Bool := matchesAt pat s 0

/-- JS `Set.prototype.add` on an insertion-ordered list:
append unless already present. -/
def sAdd (l : List JStr) (x : JStr) : List JStr :=
  if x ∈ l then l else l ++ [x]

/-- JS `[...new Set(l)]`: keep the first occurrence of each element. -/
def jsSetOf (l : List JStr) : List JStr := l.foldl sAdd []

-- ============================================================
-- Fusion & Deduplication Engine (src/main.js, runScan, lines 1318-1340)
-- ============================================================

/-- One scan candidate as it reaches the fusion filter in `runScan`:
either a bare string (Llama/intel findings arrive as strings before being
wrapped) or a full entity object. -/
structure EntityObj where
  text : JStr
  score : ℚ
  etype : JStr
  source : JStr
  deriving DecidableEq, Repr

/-- A member of the `combined` array in `runScan`:
JS duck typing (`typeof e === 'string' ? e : e.text`). -/
inductive ScanCand where
  | str (s : JStr)
  | obj (e : EntityObj)
  deriving DecidableEq, Repr

/-- `typeof e === 'string' ? e : e.text` -/
def ScanCand.text : ScanCand → JStr
  | .str s => s
  | .obj e => e.text

/-- The normalization key used by the dedup filter in `runScan`:
`text.toLowerCase().trim().replace(/\s+/g, ' ')`. -/
def normKey (t : JStr) : JStr := collapseWs (jsTrim (toLowerJ t))

/-- The fusion/dedup filter of `runScan` (src/main.js lines 1318-1338):
drop candidates whose trimmed text has length ≤ 2, then keep only the
first candidate for each normalization key.  `seen` models the JS `Map`
of keys already encountered. -/
def fuseDedupAux (seen : List JStr) : List ScanCand → List ScanCand
  | [] => []
  | e :: rest =>
    if (jsTrim e.text).length ≤ 2 then fuseDedupAux seen rest
    else
      let n := normKey e.text
      if n ∈ seen then fuseDedupAux seen rest
      else e :: fuseDedupAux (n :: seen) rest

/-- `combined = [...aiFindings, ...intelObjects].filter(...)` in `runScan`. -/
def fuseDedup (cands : List ScanCand) : List ScanCand := fuseDedupAux [] cands

-- ============================================================
-- Manual entities (src/main.js addManualEntity, runRedaction)
-- ============================================================

/-- `addManualEntity` (src/main.js lines 974-986): push the selected text
onto `manualEntities` unless already present; no length filtering. -/
def addManualEntity (manual : List JStr) (text : JStr) : List JStr :=
  if text ∈ manual then manual else manual ++ [text]

/-- `runRedaction` (src/main.js lines 1380-1382): the combined redaction
target list `[...new Set([...detectedTexts, ...manualEntities])]`. -/
def allEntityTexts (detectedTexts manual : List JStr) : List JStr :=
  jsSetOf (detectedTexts ++ manual)

/-- The dedup key of a scan candidate. -/
def keyOf (c : ScanCand) : JStr := normKey c.text

-- ============================================================
-- Commit-time redaction boundary (src/unnamed part_004 redactPDF,
-- backend contract documented in the repository's fix notes)
-- ============================================================

/-- JS `s.split(',')` / Python `s.split(',')`: split at every comma;
the empty string splits to one empty piece. -/
def splitOnComma : JStr → List JStr
  | [] => [[]]
  | c :: rest =>
    if c = ',' then [] :: splitOnComma rest
    else
      match splitOnComma rest with
      | p :: ps => (c :: p) :: ps
      | [] => [[c]]

/-- JS `Array.prototype.join(',')`. -/
def joinComma : List JStr → JStr
  | [] => []
  | [t] => t
  | t :: rest => t ++ ',' :: joinComma rest

/-- `redactPDF` (redaction service, line 15):
`formData.append('words', sensitiveWords.join(','))` — the single `words`
field sent to the redaction backend. -/
def redactWordsField (sensitiveWords : List JStr) : JStr :=
  joinComma sensitiveWords

-- ============================================================
-- Redaction Matcher (backend `page.search_for` loop)
-- ============================================================

/-- The substring of `s` from index `i` (inclusive) to `j` (exclusive). -/
def sliceJ (s : JStr) (i j : Nat) : JStr := (s.take j).drop i

/-- Python `' '.join(word.split())`: trim and collapse whitespace runs. -/
def wsNormalize (w : JStr) : JStr := collapseWs (jsTrim w)

/-- Modelled from the spec: one occurrence of search text `w` on the page,
for the backend matcher (`page.search_for`), whose code (`server.py` /
`server_prod.py`) is not under `src/`.  Per spec §4.5 and the repository's
fix notes, an occurrence is a span of page text that, after whitespace
normalization, equals the normalized search text — case-insensitively when
`ci` is true, exactly otherwise.  Spans are canonical: they start and end
on non-whitespace characters. -/
def isOccurrence (ci : Bool) (page w : JStr) (i j : Nat) : Bool :=
  let s := sliceJ page i j
  decide (i < j) && decide (j ≤ page.length) &&
  (match s.head? with | none => false | some c => !isJsWs c) &&
  (match s.getLast? with | none => false | some c => !isJsWs c) &&
  (if ci then decide (toLowerJ (collapseWs s) = toLowerJ w)
   else decide (collapseWs s = w))

/-- Modelled from the spec: all occurrences of `w` on the page
(every span, not just the first), ascending. -/
def searchOccs (ci : Bool) (page w : JStr) : List (Nat × Nat) :=
  ((List.range (page.length + 1)).flatMap
    (fun i => (List.range (page.length + 1)).map (fun j => (i, j)))).filter
    (fun p => isOccurrence ci page w p.1 p.2)

/-- Modelled from the spec: the backend redaction search for one word
(`server.py` / `server_prod.py`, documented in the repository fix notes):
normalize whitespace, search case-insensitively (`flags=2`); if that yields
zero occurrences, retry the same normalized text exact-case (`flags=0`). -/
def pageSearchFor (page w : JStr) : List (Nat × Nat) :=
  let wn := wsNormalize w
  let ciHits := searchOccs true page wn
  if ciHits = [] then searchOccs false page wn else ciHits

/-- Modelled from the spec: the backend redaction loop — split the `words`
field on commas, skip empty/whitespace-only words, and black out every
occurrence `page.search_for` finds for each word. -/
def backendRedactSpans (page wordsField : JStr) : List (Nat × Nat) :=
  (splitOnComma wordsField).flatMap
    (fun word => if jsTrim word = [] then [] else pageSearchFor page word)

-- ============================================================
-- Preview highlighting (src/main.js highlightEntitiesInText, lines 1038-1058)
-- ============================================================

/-- Worker for `previewMatches`: scan `textLower` from index `i`, matching
the literal `patLower` and restarting after each hit — the occurrences
visited by `highlightedHtml.replace(new RegExp(escapeRegex(entity), 'gi'),
...)`.  `fuel` bounds the scan (the regex engine advances by at least one
character per step). -/
def previewGo (textLower patLower : JStr) : Nat → Nat → List (Nat × Nat)
  | _, 0 => []
  | i, fuel + 1 =>
    if matchesAt patLower textLower i then
      (i, i + patLower.length) :: previewGo textLower patLower (i + patLower.length) fuel
    else if i < textLower.length then previewGo textLower patLower (i + 1) fuel
    else []

/-- The set of text occurrences highlighted for one entity by
`highlightEntitiesInText`: case-insensitive literal matches of the entity
text (no whitespace normalization).  `escapeHtml` is the identity on text
without HTML metacharacters and `escapeRegex` makes the entity a literal
pattern, so for such inputs the embedded matcher is exact. -/
def previewMatches (text pat : JStr) : List (Nat × Nat) :=
  if pat = [] then []
  else previewGo (toLowerJ text) (toLowerJ pat) 0 (text.length + 1)

-- ============================================================
-- Token Fusion (src/services/ai-engine.js detectWithBert, lines 401-433)
-- ============================================================

/-- One token-classification result item: `{ word, entity, score }`. -/
structure BertTok where
  word : JStr
  entity : JStr
  score : ℚ
  deriving DecidableEq, Repr

/-- The merge accumulator `currentEntity = { type, text, score }`. -/
structure BertAcc where
  atype : JStr
  text : JStr
  score : ℚ
  deriving DecidableEq, Repr

/-- The tag with the begin/inside marker stripped: one leading `B-` or `I-`
is removed (the `item.entity.replace` call with the anchored `[BI]` class). -/
def stripTagPre (e : JStr) : JStr :=
  match e with
  | 'B' :: '-' :: rest => rest
  | 'I' :: '-' :: rest => rest
  | _ => e

/-- `item.entity.startsWith('B-')`. -/
def isBeginTag (e : JStr) : Bool := startsWithJ e (js "B-")

/-- `item.word.replace(/^##/, '')`: strip one leading `##`. -/
def stripSubwordPre (w : JStr) : JStr :=
  match w with
  | '#' :: '#' :: rest => rest
  | _ => w

/-- `item.word.startsWith('##')`. -/
def isSubword (w : JStr) : Bool := startsWithJ w (js "##")

/-- `if (currentEntity && currentEntity.text.length > 1) mergedEntities.push(...)`:
flush the accumulator onto the output if its text is longer than one
character. -/
def flushAcc (out : List EntityObj) (cur : Option BertAcc) : List EntityObj :=
  match cur with
  | none => out
  | some a =>
    if 1 < a.text.length then out ++ [⟨a.text, a.score, a.atype, js "bert"⟩]
    else out

/-- The token merge loop of `detectWithBert` (ai-engine.js lines 402-433):
skip low-confidence and outside tokens; start a new entity on a begin tag,
an empty accumulator, or a type change (flushing the old accumulator);
otherwise extend the accumulator (`##` sub-words without a space, whole
words with one space) with the running maximum score; flush at stream end. -/
def mergeBertGo (out : List EntityObj) (cur : Option BertAcc) :
    List BertTok → List EntityObj
  | [] => flushAcc out cur
  | t :: rest =>
    if t.score < mkRat 1 2 ∨ t.entity = js "O" then mergeBertGo out cur rest
    else
      let entityType := stripTagPre t.entity
      let word := stripSubwordPre t.word
      match cur with
      | none => mergeBertGo out (some ⟨entityType, word, t.score⟩) rest
      | some a =>
        if isBeginTag t.entity || decide (a.atype ≠ entityType) then
          mergeBertGo (flushAcc out (some a)) (some ⟨entityType, word, t.score⟩) rest
        else if isSubword t.word then
          mergeBertGo out (some ⟨a.atype, a.text ++ word, max a.score t.score⟩) rest
        else
          mergeBertGo out (some ⟨a.atype, a.text ++ ' ' :: word, max a.score t.score⟩) rest

/-- `mergedEntities` as computed by `detectWithBert`. -/
def mergeBert (toks : List BertTok) : List EntityObj := mergeBertGo [] none toks

/-- Modelled from the spec (for the refinement comparison of C4): keep a
token iff it scores at least 0.5 and is not tagged outside. -/
def specKeep (t : BertTok) : Bool := !decide (t.score < mkRat 1 2) && decide (t.entity ≠ js "O")

/-- Modelled from the spec: an accumulator flush emits the entity only when
its text is longer than one character. -/
def specFlush (cur : Option BertAcc) : List EntityObj :=
  match cur with
  | none => []
  | some a => if 1 < a.text.length then [⟨a.text, a.score, a.atype, js "bert"⟩] else []

/-- Modelled from the spec: a token starts a new entity when it is marked
begin, when the accumulator is empty, or when its tag differs from the
accumulator's type. -/
def specStarts (cur : Option BertAcc) (t : BertTok) : Bool :=
  isBeginTag t.entity || cur.isNone ||
    (match cur with
     | none => true
     | some a => decide (a.atype ≠ stripTagPre t.entity))

/-- Modelled from the spec: the Token Fusion state machine with the three
explicit transition rules (start new entity with flush, extend entity,
flush at stream end). -/
def specGo (out : List EntityObj) (cur : Option BertAcc) :
    List BertTok → List EntityObj
  | [] => out ++ specFlush cur
  | t :: rest =>
    if specStarts cur t then
      specGo (out ++ specFlush cur)
        (some ⟨stripTagPre t.entity, stripSubwordPre t.word, t.score⟩) rest
    else
      match cur with
      | none => []
      | some a =>
        specGo out
          (some ⟨a.atype,
                 a.text ++ (if isSubword t.word then [] else [' ']) ++ stripSubwordPre t.word,
                 max a.score t.score⟩) rest

/-- Modelled from the spec: Token Fusion as the claim describes it —
drop low/outside tokens first, then run the state machine. -/
def mergeSpec (toks : List BertTok) : List EntityObj :=
  specGo [] none (toks.filter specKeep)

-- ============================================================
-- Free-Text Extraction Adapter
-- (src/services/ai-engine.js detectWithLlama, lines 544-567)
-- ============================================================

/-- `result.split(/[\n,]/)`: split at every newline or comma. -/
def splitNlComma : JStr → List JStr
  | [] => [[]]
  | c :: rest =>
    if c = '\n' ∨ c = ',' then [] :: splitNlComma rest
    else
      match splitNlComma rest with
      | p :: ps => (c :: p) :: ps
      | [] => [[c]]

/-- A leading list-marker character: `-`, `•`, `*`, a digit, `.`, `)`, `]`. -/
def isListMarker (c : Char) : Bool :=
  c = '-' || c = '•' || c = '*' || c.isDigit || c = '.' || c = ')' || c = ']'

/-- `item.replace` with the anchored list-marker class followed by optional
whitespace: if the item starts with a marker character, drop the whole
leading marker run and the whitespace after it; otherwise leave it alone. -/
def stripListMarkers (s : JStr) : JStr :=
  match s with
  | [] => []
  | c :: _ =>
    if isListMarker c then (s.dropWhile isListMarker).dropWhile isJsWs else s

/-- A single or double quote character. -/
def isQuote (c : Char) : Bool := c = '"' || c = '\''

/-- `item.replace` with the anchored leading/trailing quote alternation:
drop one wrapping quote from each end. -/
def stripQuotes (s : JStr) : JStr :=
  let s1 :=
    match s with
    | [] => []
    | c :: rest => if isQuote c then rest else s
  match s1.getLast? with
  | some c => if isQuote c then s1.dropLast else s1
  | none => s1

/-- The category-label test (letters/whitespace followed by a final colon,
case-insensitive). -/
def isCategoryLabel (s : JStr) : Bool :=
  match s.getLast? with
  | some ':' => decide (s.dropLast ≠ []) && s.dropLast.all (fun c => c.isAlpha || isJsWs c)
  | _ => false

/-- The item filter of the Llama response parser. -/
def llamaKeep (item : JStr) : Bool :=
  decide (1 < item.length) && decide (item ≠ js "NONE") &&
  !includesJ (toLowerJ item) (js "none found") &&
  !startsWithJ (toLowerJ item) (js "no ") &&
  !isCategoryLabel item

/-- The early "no results" return of `detectWithLlama`: the whole (trimmed)
response is the `NONE` sentinel or contains a negative-result phrase. -/
def llamaSentinel (result : JStr) : Bool :=
  decide (result = js "NONE") ||
  includesJ (toLowerJ result) (js "no pii") ||
  includesJ (toLowerJ result) (js "no sensitive")

/-- `llamaEntities` as computed by `detectWithLlama` from the trimmed
response `result`: split on newlines/commas, trim, strip list markers,
strip wrapping quotes, filter; the sentinel path contributes nothing. -/
def parseLlamaItems (result : JStr) : List JStr :=
  if llamaSentinel result then []
  else
    ((((splitNlComma result).map jsTrim).map stripListMarkers).map stripQuotes).filter
      llamaKeep

-- ============================================================
-- Rule Scanner (src/services/intel-database.js scanWithIntel, lines 438-522)
-- ============================================================

/-- JS `s.indexOf(pat, start)` hit (first occurrence index at or after
`start`), as an `Option`. -/
def indexOfFrom (hay needle : JStr) (start : Nat) : Option Nat :=
  (hitIndices needle hay).find? (fun i => decide (start ≤ i))

/-- The index sequence visited by the scanner's
`while (idx !== -1) { ...; idx = indexOf(.., idx + 1) }` loops.  `fuel`
bounds the iteration; for a non-empty needle the JS loop advances strictly
and visits exactly every occurrence (an empty needle would make the JS loop
spin forever, but both call sites guarantee non-empty keywords). -/
def kwOccAux (hay needle : JStr) : Nat → Nat → List Nat
  | 0, _ => []
  | fuel + 1, start =>
    match indexOfFrom hay needle start with
    | none => []
    | some i => i :: kwOccAux hay needle fuel (i + 1)

/-- All indices the scanner's indexOf loop visits, from the start. -/
def kwOccurrences (hay needle : JStr) : List Nat :=
  kwOccAux hay needle (hay.length + 1) 0

-- The value-extraction pattern of the keyword-context scan:
-- an anchored greedy prefix free of colon/equals/newline, an optional
-- colon-or-equals, greedy whitespace, then a 2-to-50 character capture free
-- of newline/comma/semicolon.  The functions below implement exactly the
-- regex engine's backtracking order for this pattern.

/-- The final capture class (no newline, comma or semicolon), at least two
and at most fifty characters, greedy. -/
def vcCapture (rest : JStr) : Option JStr :=
  let run := rest.takeWhile (fun c => !(c = '\n' || c = ',' || c = ';'))
  if 2 ≤ run.length then some (run.take 50) else none

/-- Greedy whitespace before the capture, backtracking from `w` skipped
whitespace characters down to none. -/
def vcWsTry (rest : JStr) : Nat → Option JStr
  | 0 => vcCapture rest
  | w + 1 => (vcCapture (rest.drop (w + 1))).orElse (fun _ => vcWsTry rest w)

/-- Whitespace run then capture, starting from the maximal run (greedy). -/
def vcWs (rest : JStr) : Option JStr :=
  vcWsTry rest (rest.takeWhile isJsWs).length

/-- The optional colon/equals delimiter (greedy: consume it if present,
fall back to the empty alternative). -/
def vcAfterPre (rest : JStr) : Option JStr :=
  match rest with
  | [] => vcWs []
  | c :: rest' =>
    if c = ':' ∨ c = '=' then (vcWs rest').orElse (fun _ => vcWs rest)
    else vcWs rest

/-- The greedy anchored prefix free of colon/equals/newline, backtracking
from `p` consumed characters down to none. -/
def vcPreTry (context : JStr) : Nat → Option JStr
  | 0 => vcAfterPre context
  | p + 1 => (vcAfterPre (context.drop (p + 1))).orElse (fun _ => vcPreTry context p)

/-- `context.match` with the anchored value-extraction pattern: the captured
group, or `none` when the pattern does not match. -/
def valueCapture (context : JStr) : Option JStr :=
  vcPreTry context
    (context.takeWhile (fun c => !(c = ':' || c = '=' || c = '\n'))).length

/-- The scanner's stop-word list (`isCommonWord`, intel-database.js
lines 527-541). -/
def commonWordList : List JStr :=
  [js "the", js "a", js "an", js "is", js "are", js "was", js "were", js "and",
   js "or", js "but", js "for", js "with", js "this", js "that", js "from",
   js "have", js "has", js "had", js "will", js "would", js "could",
   js "should", js "may", js "might", js "must", js "can", js "not", js "all",
   js "any", js "each", js "every", js "both", js "few", js "more", js "most",
   js "other", js "some", js "such", js "than", js "too", js "very", js "just",
   js "only", js "also", js "even", js "still", js "yet", js "account",
   js "number", js "date", js "name", js "address", js "phone", js "email",
   js "statement", js "record", js "document", js "page", js "total",
   js "amount", js "balance", js "january", js "february", js "march",
   js "april", js "june", js "july", js "august", js "september",
   js "october", js "november", js "december", js "monday", js "tuesday",
   js "wednesday", js "thursday", js "friday", js "saturday", js "sunday"]

/-- `isCommonWord(text)`: membership of the lower-cased, trimmed text in the
stop-word list. -/
def isCommonWord (text : JStr) : Bool :=
  decide (jsTrim (toLowerJ text) ∈ commonWordList)

/-- A module-level compiled global regular expression, abstracted: `id`
indexes this pattern's mutable `lastIndex` cell in the shared state, and
`execAllFrom text from` is the (pure) sequence of result strings the
pattern's exec loop yields on `text` starting at position `from` (for the
name patterns this is already the captured group or the full match, i.e.
`match[1] || match[0]`).  The concrete regex tables are large static data;
the Rule Scanner's control flow never depends on their contents, so the
claims about it hold for every instantiation. -/
structure GPat where
  id : Nat
  execAllFrom : JStr → Nat → List JStr

/-- One preset of the Pattern Library: its compiled patterns and its
keyword list. -/
structure IntelPreset where
  patterns : List GPat
  keywords : List JStr

/-- The Pattern Library environment: the universal PII patterns, the name
patterns, and the preset lookup (`INTEL_PRESETS[presetId]`, `none` for an
unknown id). -/
structure IntelEnv where
  commonPatterns : List GPat
  namePatterns : List GPat
  presets : JStr → Option IntelPreset

/-- The mutable `lastIndex` cells of all module-level patterns. -/
def PatState := Nat → Nat

/-- Write one pattern's `lastIndex`. -/
def stWrite (σ : PatState) (i v : Nat) : PatState :=
  fun j => if j = i then v else σ j

/-- The all-zero initial pattern state (freshly compiled regexes). -/
def patStateZero : PatState := fun _ => 0

/-- One step of the common-PII phase: `pattern.lastIndex = 0;
const matches = text.match(pattern) || []; matches.forEach(m =>
findings.add(m.trim()))`.  `String.match` on a global pattern scans from
position 0 — here read back from the just-reset cell — and leaves
`lastIndex` at 0. -/
def runCommonPat (text : JStr) (acc : List JStr × PatState) (p : GPat) :
    List JStr × PatState :=
  let σ1 := stWrite acc.2 p.id 0
  let ms := p.execAllFrom text (σ1 p.id)
  (ms.foldl (fun f m => sAdd f (jsTrim m)) acc.1, σ1)

/-- One step of the name-heuristics phase: reset `lastIndex`, run the exec
loop to exhaustion (which ends with `lastIndex` back at 0), and add every
non-empty name longer than three characters that is not a stop word. -/
def runNamePat (text : JStr) (acc : List JStr × PatState) (p : GPat) :
    List JStr × PatState :=
  let σ1 := stWrite acc.2 p.id 0
  let ms := p.execAllFrom text (σ1 p.id)
  let f := ms.foldl
    (fun f name =>
      if name ≠ [] ∧ 3 < name.length ∧ isCommonWord name = false then
        sAdd f (jsTrim name)
      else f) acc.1
  (f, stWrite σ1 p.id 0)

/-- One step of a preset's pattern scan: reset `lastIndex` (all preset
patterns carry the global flag), match from the start, and keep matches of
length ≥ 3. -/
def runPresetPat (text : JStr) (acc : List JStr × PatState) (p : GPat) :
    List JStr × PatState :=
  let σ1 := stWrite acc.2 p.id 0
  let ms := p.execAllFrom text (σ1 p.id)
  (ms.foldl (fun f m => if 3 ≤ m.length then sAdd f (jsTrim m) else f) acc.1, σ1)

/-- The keyword-context extraction for one preset keyword
(intel-database.js lines 480-501): for every occurrence of the keyword
(case-insensitive), take the next 100 characters, run the value-extraction
pattern, and add the trimmed value when it is longer than two characters,
differs from the keyword, and is not a stop word.  `kwStep` is the body
run at one occurrence index. -/
def kwStep (text kw : JStr) (f : List JStr) (idx : Nat) : List JStr :=
  match valueCapture ((text.drop idx).take 100) with
  | some v0 =>
    if 2 < (jsTrim v0).length ∧ toLowerJ (jsTrim v0) ≠ toLowerJ kw ∧
        isCommonWord (jsTrim v0) = false then
      sAdd f (jsTrim v0)
    else f
  | none => f

/-- All occurrences of one preset keyword, folded with `kwStep`. -/
def runKeyword (text : JStr) (f : List JStr) (kw : JStr) : List JStr :=
  (kwOccurrences (toLowerJ text) (toLowerJ kw)).foldl (kwStep text kw) f

/-- One active preset (intel-database.js lines 464-502): an unknown id is
skipped; otherwise run its patterns, then its keyword extraction. -/
def runPreset (env : IntelEnv) (text : JStr) (acc : List JStr × PatState)
    (pid : JStr) : List JStr × PatState :=
  match env.presets pid with
  | none => acc
  | some preset =>
    let acc1 := preset.patterns.foldl (runPresetPat text) acc
    (preset.keywords.foldl (runKeyword text) acc1.1, acc1.2)

/-- One custom keyword (intel-database.js lines 505-514): skip it unless it
is non-blank and occurs in the text; otherwise add every case-preserved
occurrence. -/
def runCustomKw (text : JStr) (f : List JStr) (kw : JStr) : List JStr :=
  if jsTrim kw ≠ [] ∧ includesJ (toLowerJ text) (toLowerJ kw) = true then
    (kwOccurrences (toLowerJ text) (toLowerJ kw)).foldl
      (fun f idx => sAdd f ((text.drop idx).take kw.length)) f
  else f

/-- `scanWithIntel(text, activePresets, customKeywords)` with the shared
pattern state threaded explicitly: common PII patterns, name heuristics,
active presets (patterns + keyword context), custom keywords, then the
final length-≥-2 filter on the insertion-ordered findings set. -/
def scanWithIntel (env : IntelEnv) (text : JStr)
    (activePresets customKeywords : List JStr) (σ : PatState) :
    List JStr × PatState :=
  let acc1 := env.commonPatterns.foldl (runCommonPat text) ([], σ)
  let acc2 := env.namePatterns.foldl (runNamePat text) acc1
  let acc3 := activePresets.foldl (runPreset env text) acc2
  let findings := customKeywords.foldl (runCustomKw text) acc3.1
  (findings.filter (fun item => 2 ≤ (jsTrim item).length), acc3.2)

/-- A small concrete Pattern Library fixture (no compiled patterns, one
preset with the `account number` keyword) used to instantiate the
rule-scanner theorems on concrete inputs. -/
def envEx : IntelEnv where
  commonPatterns := []
  namePatterns := []
  presets := fun pid =>
    if pid = js "bank-statement" then
      some { patterns := [], keywords := [js "account number"] }
    else none

-- ============================================================
-- Lemmas about the fusion/dedup filter
-- ============================================================

theorem fuseDedupAux_filter_nil (cands : List ScanCand) :
    ∀ seen k, k ∈ seen →
      (fuseDedupAux seen cands).filter (fun c => decide (keyOf c = k)) = [] := by
  induction cands with
  | nil => intro seen k _; rfl
  | cons e rest ih =>
    intro seen k hk
    unfold fuseDedupAux
    by_cases hshort : (jsTrim e.text).length ≤ 2
    · simp only [hshort, if_true]; exact ih seen k hk
    · simp only [hshort, if_false]
      by_cases hdup : normKey e.text ∈ seen
      · simp only [hdup, if_true]; exact ih seen k hk
      · simp only [hdup, if_false]
        have hne : keyOf e ≠ k := by
          intro h
          simp only [keyOf] at h
          rw [h] at hdup
          exact hdup hk
        simp only [List.filter_cons, decide_eq_true_eq, hne, if_false]
        exact ih (normKey e.text :: seen) k (List.mem_cons_of_mem _ hk)

theorem fuseDedupAux_filter_first (cands : List ScanCand) :
    ∀ seen k f, k ∉ seen →
      cands.find? (fun c => decide (keyOf c = k)) = some f →
      2 < (jsTrim f.text).length →
      (fuseDedupAux seen cands).filter (fun c => decide (keyOf c = k)) = [f] := by
  induction cands with
  | nil => intro seen k f _ hfind _; simp [List.find?] at hfind
  | cons e rest ih =>
    intro seen k f hseen hfind hlen
    unfold fuseDedupAux
    by_cases hke : keyOf e = k
    · have hfe : f = e := by
        rw [List.find?_cons_of_pos _ (by simpa using hke)] at hfind
        exact (Option.some_inj.mp hfind).symm
      subst hfe
      have hshort : ¬ (jsTrim f.text).length ≤ 2 := by omega
      simp only [hshort, if_false]
      have hdup : normKey f.text ∉ seen := by
        intro hmem
        apply hseen
        rw [← hke]
        exact hmem
      simp only [hdup, if_false]
      simp only [List.filter_cons, decide_eq_true_eq, hke, if_true]
      have : (fuseDedupAux (normKey f.text :: seen) rest).filter
          (fun c => decide (keyOf c = k)) = [] := by
        apply fuseDedupAux_filter_nil
        rw [← hke]; exact List.mem_cons_self _ _
      rw [this]
    · rw [List.find?_cons_of_neg _ (by simpa using hke)] at hfind
      by_cases hshort : (jsTrim e.text).length ≤ 2
      · simp only [hshort, if_true]; exact ih seen k f hseen hfind hlen
      · simp only [hshort, if_false]
        by_cases hdup : normKey e.text ∈ seen
        · simp only [hdup, if_true]; exact ih seen k f hseen hfind hlen
        · simp only [hdup, if_false]
          simp only [List.filter_cons, decide_eq_true_eq, hke, if_false]
          apply ih (normKey e.text :: seen) k f _ hfind hlen
          intro hmem
          rcases List.mem_cons.mp hmem with h | h
          · exact hke h.symm
          · exact hseen h

theorem mem_fuseDedupAux_long (cands : List ScanCand) :
    ∀ seen c, c ∈ fuseDedupAux seen cands → 2 < (jsTrim c.text).length := by
  induction cands with
  | nil => intro seen c hc; simp [fuseDedupAux] at hc
  | cons e rest ih =>
    intro seen c hc
    unfold fuseDedupAux at hc
    by_cases hshort : (jsTrim e.text).length ≤ 2
    · simp only [hshort, if_true] at hc; exact ih seen c hc
    · simp only [hshort, if_false] at hc
      by_cases hdup : normKey e.text ∈ seen
      · simp only [hdup, if_true] at hc; exact ih seen c hc
      · simp only [hdup, if_false] at hc
        rcases List.mem_cons.mp hc with h | h
        · subst h; omega
        · exact ih _ c h

-- ============================================================
-- C1: fusion dedup correctness
-- ============================================================

/-- C1 counterexample: the candidates `"ab"` and `"AB"` share the
normalization key `"ab"`, yet the fused output contains zero (not exactly
one) entities with that key — both are removed by the length-≤-2 filter
that runs inside the same pass, before dedup can retain one. -/
theorem c1_counterexample :
    keyOf (.str (js "ab")) = keyOf (.str (js "AB")) ∧
    ((fuseDedup [.str (js "ab"), .str (js "AB")]).filter
      (fun c => decide (keyOf c = keyOf (.str (js "ab"))))).length = 0 := by
  decide

/-- C1 (amended): if two candidates share a normalization key and the
first-seen candidate `f` with that key survives the short-candidate filter
(trimmed length > 2), then the fused output contains exactly one entity
with that key, namely `f` itself — the first-seen candidate with its
original casing and metadata. -/
theorem c1_dedup_first_seen (cands : List ScanCand) (c₁ c₂ f : ScanCand)
    (h1 : c₁ ∈ cands) (h2 : c₂ ∈ cands) (hkey : keyOf c₁ = keyOf c₂)
    (hfind : cands.find? (fun c => decide (keyOf c = keyOf c₁)) = some f)
    (hlen : 2 < (jsTrim f.text).length) :
    (fuseDedup cands).filter (fun c => decide (keyOf c = keyOf c₁)) = [f] := by
  exact fuseDedupAux_filter_first cands [] (keyOf c₁) f (by simp) hfind hlen

/-- Witness for C1: concrete duplicate pair `"abc"` / `"ABC"`; the fused
output keeps exactly the first-seen `"abc"`. -/
theorem c1_dedup_first_seen_witness :
    (fuseDedup [.str (js "abc"), .str (js "ABC")]).filter
      (fun c => decide (keyOf c = keyOf (.str (js "abc")))) = [.str (js "abc")] :=
  c1_dedup_first_seen [.str (js "abc"), .str (js "ABC")]
    (.str (js "abc")) (.str (js "ABC")) (.str (js "abc"))
    (by decide) (by decide) (by decide) (by decide) (by decide)

-- ============================================================
-- C5: short-candidate filtering
-- ============================================================

/-- C5 counterexample: a manual (operator-added) entity of trimmed length 2
is stored unfiltered by `addManualEntity` and appears in the combined
redaction target list built by `runRedaction` — short candidates are NOT
discarded uniformly across all sources. -/
theorem c5_counterexample :
    (jsTrim (js "ab")).length ≤ 2 ∧
    js "ab" ∈ allEntityTexts [] (addManualEntity [] (js "ab")) := by
  decide

/-- C5 (amended): detector candidates (AI and pattern findings entering the
fusion filter in `runScan`) of trimmed length ≤ 2 are discarded before
dedup, so no such entity appears in the fused `detectedEntities`; manual
entities bypass this filter entirely. -/
theorem c5_short_filtered (cands : List ScanCand) (c : ScanCand)
    (hc : c ∈ fuseDedup cands) : 2 < (jsTrim c.text).length :=
  mem_fuseDedupAux_long cands [] c hc

/-- Witness for C5: a concrete fused output member has trimmed length > 2. -/
theorem c5_short_filtered_witness :
    (.str (js "abc") ∈ fuseDedup [.str (js "ab"), .str (js "abc")]) ∧
    2 < (jsTrim (ScanCand.str (js "abc")).text).length :=
  ⟨by decide, c5_short_filtered [.str (js "ab"), .str (js "abc")]
    (.str (js "abc")) (by decide)⟩

-- ============================================================
-- Lemmas about comma splitting and joining
-- ============================================================

theorem splitOnComma_ne_nil (s : JStr) : splitOnComma s ≠ [] := by
  cases s with
  | nil => simp [splitOnComma]
  | cons c rest =>
    unfold splitOnComma
    by_cases hc : c = ','
    · simp [hc]
    · simp only [hc, if_false]
      cases h : splitOnComma rest <;> simp

theorem splitOnComma_cons_comma (rest : JStr) :
    splitOnComma (',' :: rest) = [] :: splitOnComma rest := by
  simp [splitOnComma]

theorem splitOnComma_cons_other (c : Char) (rest : JStr) (h : c ≠ ',') :
    splitOnComma (c :: rest) =
      match splitOnComma rest with
      | p :: ps => (c :: p) :: ps
      | [] => [[c]] := by
  simp [splitOnComma, h]

theorem splitOnComma_append_comma (a b : JStr) :
    splitOnComma (a ++ ',' :: b) = splitOnComma a ++ splitOnComma b := by
  induction a with
  | nil => simp [splitOnComma_cons_comma, splitOnComma]
  | cons c a' ih =>
    by_cases hc : c = ','
    · subst hc
      simp only [List.cons_append, splitOnComma_cons_comma, ih]
    · simp only [List.cons_append]
      rw [splitOnComma_cons_other c _ hc, splitOnComma_cons_other c a' hc, ih]
      cases h : splitOnComma a' with
      | nil => exact absurd h (splitOnComma_ne_nil a')
      | cons q qs => simp

theorem splitOnComma_joinComma (texts : List JStr) (hne : texts ≠ []) :
    splitOnComma (joinComma texts) = texts.flatMap splitOnComma := by
  induction texts with
  | nil => exact absurd rfl hne
  | cons t ts ih =>
    cases ts with
    | nil => simp [joinComma]
    | cons u us =>
      have : joinComma (t :: u :: us) = t ++ ',' :: joinComma (u :: us) := rfl
      rw [this, splitOnComma_append_comma, ih (by simp)]
      simp

theorem not_comma_mem_splitOnComma (s : JStr) :
    ∀ p ∈ splitOnComma s, ',' ∉ p := by
  induction s with
  | nil => intro p hp; simp [splitOnComma] at hp; simp [hp]
  | cons c rest ih =>
    intro p hp
    unfold splitOnComma at hp
    by_cases hc : c = ','
    · simp only [hc, if_true] at hp
      rcases List.mem_cons.mp hp with h | h
      · simp [h]
      · exact ih p h
    · simp only [hc, if_false] at hp
      cases h : splitOnComma rest with
      | nil => exact absurd h (splitOnComma_ne_nil rest)
      | cons q qs =>
        rw [h] at hp
        rcases List.mem_cons.mp hp with h1 | h1
        · subst h1
          intro hmem
          rcases List.mem_cons.mp hmem with h2 | h2
          · exact hc h2.symm
          · exact ih q (h ▸ List.mem_cons_self _ _) h2
        · exact ih p (h ▸ List.mem_cons_of_mem _ h1)

-- ============================================================
-- C10: comma fragmentation at the redaction boundary
-- ============================================================

/-- C10 (confirmed): `redactPDF` encodes the entity list as one `words`
field joining the texts with commas, so the backend's comma split yields
exactly the comma-fragments of every entity text; an entity whose own text
contains a comma is never among the received search words. -/
theorem c10_comma_fragmentation (texts : List JStr) (t : JStr)
    (hne : texts ≠ []) (ht : t ∈ texts) (hc : ',' ∈ t) :
    splitOnComma (redactWordsField texts) = texts.flatMap splitOnComma ∧
    t ∉ splitOnComma (redactWordsField texts) := by
  refine ⟨splitOnComma_joinComma texts hne, fun hmem => ?_⟩
  exact not_comma_mem_splitOnComma _ t hmem hc

/-- Witness for C10: the single entity `"Smith, John"` reaches the backend
as the two fragments `"Smith"` and `" John"`, never as itself. -/
theorem c10_comma_fragmentation_witness :
    ([js "Smith, John"] ≠ ([] : List JStr)) ∧
    splitOnComma (redactWordsField [js "Smith, John"]) =
      [js "Smith, John"].flatMap splitOnComma ∧
    js "Smith, John" ∉ splitOnComma (redactWordsField [js "Smith, John"]) :=
  ⟨by decide, c10_comma_fragmentation [js "Smith, John"] (js "Smith, John")
    (by decide) (by decide) (by decide)⟩

-- ============================================================
-- C3: Redaction Matcher search order
-- ============================================================

/-- C3 (confirmed, modelled from the spec): the matcher first searches the
whitespace-normalized text case-insensitively and returns every occurrence
found; only when that pass is empty does it retry the normalized text
exact-case; entity `"ALMEIDA"` against page `"Almeida"` yields exactly one
region. -/
theorem c3_matcher_search_order :
    (∀ page w, searchOccs true page (wsNormalize w) ≠ [] →
      pageSearchFor page w = searchOccs true page (wsNormalize w)) ∧
    (∀ page w, searchOccs true page (wsNormalize w) = [] →
      pageSearchFor page w = searchOccs false page (wsNormalize w)) ∧
    (pageSearchFor (js "Almeida") (js "ALMEIDA")).length = 1 := by
  refine ⟨fun page w h => ?_, fun page w h => ?_, by decide⟩
  · simp only [pageSearchFor, h, if_false]
  · simp only [pageSearchFor, h, if_true]

/-- Witness for C3: the two search-order branches at concrete pages. -/
theorem c3_matcher_search_order_witness :
    (searchOccs true (js "Almeida") (wsNormalize (js "ALMEIDA")) ≠ [] ∧
     pageSearchFor (js "Almeida") (js "ALMEIDA") =
       searchOccs true (js "Almeida") (wsNormalize (js "ALMEIDA"))) ∧
    (searchOccs true (js "xy") (wsNormalize (js "ALMEIDA")) = [] ∧
     pageSearchFor (js "xy") (js "ALMEIDA") =
       searchOccs false (js "xy") (wsNormalize (js "ALMEIDA"))) :=
  ⟨⟨by decide, c3_matcher_search_order.1 (js "Almeida") (js "ALMEIDA") (by decide)⟩,
   ⟨by decide, c3_matcher_search_order.2.1 (js "xy") (js "ALMEIDA") (by decide)⟩⟩

-- ============================================================
-- C2: preview/commit equivalence
-- ============================================================

/-- C2 (code-bug evidence): preview and commit do NOT share one
normalization/matching function.  For the page text `"Smith, John"` and the
single entity `"Smith, John"`, the preview highlighter marks the one
occurrence of the whole entity (characters 0–11), while commit-time
redaction — which joins entity texts with commas into the `words` field the
backend re-splits — covers only the fragments `"Smith"` (0–5) and `"John"`
(7–11).  The two occurrence sets differ. -/
theorem c2_preview_commit_diverge :
    previewMatches (js "Smith, John") (js "Smith, John") = [(0, 11)] ∧
    backendRedactSpans (js "Smith, John") (redactWordsField [js "Smith, John"]) =
      [(0, 5), (7, 11)] ∧
    previewMatches (js "Smith, John") (js "Smith, John") ≠
      backendRedactSpans (js "Smith, John") (redactWordsField [js "Smith, John"]) := by
  decide

-- ============================================================
-- C4: token fusion algorithm
-- ============================================================

theorem flushAcc_eq (out : List EntityObj) (cur : Option BertAcc) :
    flushAcc out cur = out ++ specFlush cur := by
  cases cur with
  | none => simp [flushAcc, specFlush]
  | some a =>
    by_cases h : 1 < a.text.length <;> simp [flushAcc, specFlush, h]

theorem mergeBertGo_eq_specGo (toks : List BertTok) :
    ∀ out cur, mergeBertGo out cur toks = specGo out cur (toks.filter specKeep) := by
  induction toks with
  | nil => intro out cur; simp [mergeBertGo, specGo, flushAcc_eq]
  | cons t rest ih =>
    intro out cur
    by_cases hk : t.score < mkRat 1 2 ∨ t.entity = js "O"
    · have hkeep : specKeep t = false := by
        rcases hk with h | h <;> simp [specKeep, h]
      simp only [mergeBertGo, if_pos hk, List.filter_cons, hkeep, if_false,
        Bool.false_eq_true]
      exact ih out cur
    · have hks : ¬ t.score < mkRat 1 2 := fun h => hk (Or.inl h)
      have hke : t.entity ≠ js "O" := fun h => hk (Or.inr h)
      have hkeep : specKeep t = true := by
        simp only [specKeep, Bool.and_eq_true, Bool.not_eq_true',
          decide_eq_false_iff_not, decide_eq_true_eq]
        exact ⟨hks, hke⟩
      simp only [mergeBertGo, if_neg hk, List.filter_cons, hkeep, if_true]
      cases cur with
      | none =>
        have hstart : specStarts none t = true := by simp [specStarts]
        simp only [specGo, hstart, if_true, specFlush, List.append_nil]
        exact ih out _
      | some a =>
        by_cases hs : (isBeginTag t.entity || decide (a.atype ≠ stripTagPre t.entity)) = true
        · have hstart : specStarts (some a) t = true := by
            simp only [specStarts, Option.isNone_some, Bool.or_false]
            rcases Bool.or_eq_true_iff.mp hs with h | h <;> simp [h]
          simp only [hs, if_true, specGo, hstart]
          rw [flushAcc_eq, ih]
        · have hstart : specStarts (some a) t = false := by
            simp only [specStarts, Option.isNone_some, Bool.or_false]
            simpa using hs
          simp only [Bool.not_eq_true] at hs
          simp only [hs, Bool.false_eq_true, if_false, specGo, hstart]
          by_cases hw : isSubword t.word = true
          · simp only [hw, if_true, List.append_nil]
            exact ih out _
          · simp only [Bool.not_eq_true] at hw
            simp only [hw, Bool.false_eq_true, if_false, List.append_assoc,
              List.singleton_append]
            exact ih out _

/-- C4 (confirmed): the token fusion loop of `detectWithBert` coincides with
the spec's state machine — drop tokens scoring below 0.5 or tagged outside;
start a new entity on a begin mark, an empty accumulator, or a tag change
(also for continuation tokens); append `##` sub-word pieces without a space
and whole words with one space; keep the running maximum score; emit the
final accumulator only when longer than one character — and the two claimed
examples fuse to `"Johnson"` and `"New York"`. -/
theorem c4_token_fusion :
    (∀ toks : List BertTok, mergeBert toks = mergeSpec toks) ∧
    mergeBert [⟨js "John", js "B-PER", mkRat 9 10⟩, ⟨js "##son", js "I-PER", mkRat 4 5⟩] =
      [⟨js "Johnson", mkRat 9 10, js "PER", js "bert"⟩] ∧
    mergeBert [⟨js "New", js "B-LOC", mkRat 9 10⟩, ⟨js "York", js "I-LOC", mkRat 4 5⟩] =
      [⟨js "New York", mkRat 9 10, js "LOC", js "bert"⟩] := by
  refine ⟨fun toks => mergeBertGo_eq_specGo toks [] none, by decide, by decide⟩

-- ============================================================
-- C9: Free-Text Extraction Adapter parsing
-- ============================================================

/-- C9 (confirmed): every item the Llama adapter outputs has length > 1, is
not the `NONE` sentinel, is not a negative-result phrase (`"no pii"`,
`"none found"`, case-insensitively), and is not a bare category label
ending in a colon; and every output item is exactly the verbatim
quote-stripped, marker-stripped, trimmed text of one piece of the
newline/comma split — no content validation. -/
theorem c9_llama_parse (result item : JStr)
    (h : item ∈ parseLlamaItems result) :
    (1 < item.length ∧ item ≠ js "NONE" ∧
     toLowerJ item ≠ js "no pii" ∧ toLowerJ item ≠ js "none found" ∧
     isCategoryLabel item = false) ∧
    ∃ piece ∈ splitNlComma result,
      item = stripQuotes (stripListMarkers (jsTrim piece)) := by
  by_cases hs : llamaSentinel result = true
  · simp [parseLlamaItems, hs] at h
  · simp only [Bool.not_eq_true] at hs
    simp only [parseLlamaItems, hs, Bool.false_eq_true, if_false] at h
    have hmem := (List.mem_filter.mp h).1
    have hkeep := (List.mem_filter.mp h).2
    simp only [llamaKeep, Bool.and_eq_true, Bool.not_eq_true', decide_eq_true_eq] at hkeep
    obtain ⟨⟨⟨⟨hlong, hnone⟩, hnf⟩, hnost⟩, hcat⟩ := hkeep
    refine ⟨⟨hlong, hnone, ?_, ?_, hcat⟩, ?_⟩
    · intro heq
      rw [heq] at hnost
      revert hnost
      decide
    · intro heq
      rw [heq] at hnf
      revert hnf
      decide
    · obtain ⟨q, hq, hq2⟩ := List.mem_map.mp hmem
      obtain ⟨m, hm, hm2⟩ := List.mem_map.mp hq
      obtain ⟨piece, hpiece, hp2⟩ := List.mem_map.mp hm
      exact ⟨piece, hpiece, by rw [← hq2, ← hm2, ← hp2]⟩

/-- Witness for C9: a concrete three-item response; the surviving item
`"John Smith"` satisfies all the guarantees. -/
theorem c9_llama_parse_witness :
    (js "John Smith" ∈ parseLlamaItems (js "John Smith\n- 555-0199, NONE")) ∧
    ((1 < (js "John Smith").length ∧ js "John Smith" ≠ js "NONE" ∧
      toLowerJ (js "John Smith") ≠ js "no pii" ∧
      toLowerJ (js "John Smith") ≠ js "none found" ∧
      isCategoryLabel (js "John Smith") = false) ∧
     ∃ piece ∈ splitNlComma (js "John Smith\n- 555-0199, NONE"),
       js "John Smith" = stripQuotes (stripListMarkers (jsTrim piece))) :=
  ⟨by decide,
   c9_llama_parse (js "John Smith\n- 555-0199, NONE") (js "John Smith") (by decide)⟩

-- ============================================================
-- Generic lemmas: insertion-ordered sets and folds
-- ============================================================

theorem mem_sAdd_of_mem (l : List JStr) (x y : JStr) (h : x ∈ l) : x ∈ sAdd l y := by
  unfold sAdd
  by_cases hy : y ∈ l
  · simpa [hy]
  · simp [hy, List.mem_append, h]

theorem mem_sAdd_self (l : List JStr) (x : JStr) : x ∈ sAdd l x := by
  unfold sAdd
  by_cases hx : x ∈ l <;> simp [hx]

theorem mem_foldl_of_mem {α : Type} (step : List JStr → α → List JStr)
    (hstep : ∀ f a x, x ∈ f → x ∈ step f a) (l : List α) :
    ∀ f x, x ∈ f → x ∈ l.foldl step f := by
  induction l with
  | nil => intro f x h; exact h
  | cons a rest ih =>
    intro f x h
    exact ih (step f a) x (hstep f a x h)

theorem mem_foldl_intro {α : Type} (step : List JStr → α → List JStr)
    (hstep : ∀ f a x, x ∈ f → x ∈ step f a) (l : List α) (a : α) (x : JStr)
    (ha : a ∈ l) (hx : ∀ f, x ∈ step f a) : ∀ f, x ∈ l.foldl step f := by
  induction l with
  | nil => cases ha
  | cons b rest ih =>
    intro f
    simp only [List.foldl_cons]
    rcases List.mem_cons.mp ha with h | h
    · subst h
      exact mem_foldl_of_mem step hstep rest (step f a) x (hx f)
    · exact ih h (step f b)

theorem fst_mem_foldl_pair {α : Type}
    (step : (List JStr × PatState) → α → (List JStr × PatState))
    (hstep : ∀ acc a x, x ∈ acc.1 → x ∈ (step acc a).1) (l : List α) :
    ∀ acc x, x ∈ acc.1 → x ∈ (l.foldl step acc).1 := by
  induction l with
  | nil => intro acc x h; exact h
  | cons a rest ih =>
    intro acc x h
    exact ih (step acc a) x (hstep acc a x h)

theorem fst_mem_foldl_pair_intro {α : Type}
    (step : (List JStr × PatState) → α → (List JStr × PatState))
    (hstep : ∀ acc a x, x ∈ acc.1 → x ∈ (step acc a).1) (l : List α) (a : α)
    (x : JStr) (ha : a ∈ l) (hx : ∀ acc, x ∈ (step acc a).1) :
    ∀ acc, x ∈ (l.foldl step acc).1 := by
  induction l with
  | nil => cases ha
  | cons b rest ih =>
    intro acc
    simp only [List.foldl_cons]
    rcases List.mem_cons.mp ha with h | h
    · subst h
      exact fst_mem_foldl_pair step hstep rest (step acc a) x (hx acc)
    · exact ih h (step acc b)

theorem foldl_pair_fst_congr {α : Type}
    (step : (List JStr × PatState) → α → (List JStr × PatState))
    (hstep : ∀ acc acc' a, acc.1 = acc'.1 → (step acc a).1 = (step acc' a).1)
    (l : List α) :
    ∀ acc acc', acc.1 = acc'.1 → (l.foldl step acc).1 = (l.foldl step acc').1 := by
  induction l with
  | nil => intro acc acc' h; exact h
  | cons a rest ih =>
    intro acc acc' h
    exact ih (step acc a) (step acc' a) (hstep acc acc' a h)

-- ============================================================
-- Lemmas: the indexOf loop visits every occurrence
-- ============================================================

theorem mem_hitIndices (pat s : JStr) (i : Nat) (hne : pat ≠ [])
    (h : matchesAt pat s i = true) : i ∈ hitIndices pat s := by
  unfold hitIndices
  refine List.mem_filter.mpr ⟨List.mem_range.mpr ?_, h⟩
  by_contra hgt
  push_neg at hgt
  unfold matchesAt at h
  rw [List.drop_eq_nil_of_le (by omega)] at h
  simp at h
  exact hne h

theorem hitIndices_pairwise (pat s : JStr) :
    (hitIndices pat s).Pairwise (· ≤ ·) := by
  unfold hitIndices
  exact ((List.pairwise_lt_range _).filter _).imp le_of_lt

theorem find?_ge_some (l : List Nat) :
    l.Pairwise (· ≤ ·) → ∀ start i, i ∈ l → start ≤ i →
      ∃ j, l.find? (fun n => decide (start ≤ n)) = some j ∧
        start ≤ j ∧ j ∈ l ∧ j ≤ i := by
  induction l with
  | nil => intro _ start i hi; cases hi
  | cons b rest ih =>
    intro hp start i hi hsi
    by_cases hb : start ≤ b
    · refine ⟨b, ?_, hb, List.mem_cons_self _ _, ?_⟩
      · rw [List.find?_cons_of_pos _ (by simpa using hb)]
      · rcases List.mem_cons.mp hi with h | h
        · omega
        · exact (List.pairwise_cons.mp hp).1 i h
    · have hib : i ≠ b := fun h => hb (h ▸ hsi)
      rcases List.mem_cons.mp hi with h | h
      · exact absurd h hib
      · obtain ⟨j, hj1, hj2, hj3, hj4⟩ :=
          ih (List.pairwise_cons.mp hp).2 start i h hsi
        refine ⟨j, ?_, hj2, List.mem_cons_of_mem _ hj3, hj4⟩
        rw [List.find?_cons_of_neg _ (by simpa using hb)]
        exact hj1

theorem mem_kwOccAux (hay needle : JStr) (i : Nat)
    (hi : i ∈ hitIndices needle hay) :
    ∀ fuel start, start ≤ i → hay.length < start + fuel →
      i ∈ kwOccAux hay needle fuel start := by
  intro fuel
  induction fuel with
  | zero =>
    intro start hsi hlen
    have hir : i < hay.length + 1 :=
      List.mem_range.mp (List.mem_filter.mp hi).1
    omega
  | succ fuel ih =>
    intro start hsi hlen
    obtain ⟨j, hj1, hj2, hj3, hj4⟩ :=
      find?_ge_some (hitIndices needle hay) (hitIndices_pairwise _ _) start i hi hsi
    unfold kwOccAux
    simp only [indexOfFrom]
    rw [hj1]
    by_cases hij : j = i
    · subst hij; exact List.mem_cons_self _ _
    · exact List.mem_cons_of_mem _ (ih (j + 1) (by omega) (by omega))

theorem mem_kwOccurrences (hay needle : JStr) (i : Nat) (hne : needle ≠ [])
    (h : matchesAt needle hay i = true) : i ∈ kwOccurrences hay needle :=
  mem_kwOccAux hay needle i (mem_hitIndices _ _ _ hne h) (hay.length + 1) 0
    (Nat.zero_le _) (by omega)

-- ============================================================
-- Lemmas: trimming is idempotent
-- ============================================================

theorem dropWhile_dropWhile (p : Char → Bool) (l : JStr) :
    (l.dropWhile p).dropWhile p = l.dropWhile p := by
  induction l with
  | nil => rfl
  | cons c rest ih =>
    by_cases h : p c <;> simp [List.dropWhile_cons, h, ih]

theorem head_dropWhile_false (p : Char → Bool) (l : JStr) (c : Char)
    (rest : JStr) (h : l.dropWhile p = c :: rest) : p c = false := by
  induction l with
  | nil => simp [List.dropWhile] at h
  | cons b tl ih =>
    by_cases hb : p b
    · rw [List.dropWhile_cons, if_pos hb] at h
      exact ih h
    · rw [List.dropWhile_cons, if_neg hb] at h
      injection h with h1 _
      subst h1
      simpa using hb

theorem getLast?_dropWhile (p : Char → Bool) (l : JStr)
    (hne : l.dropWhile p ≠ []) : (l.dropWhile p).getLast? = l.getLast? := by
  induction l with
  | nil => simp [List.dropWhile] at hne
  | cons b tl ih =>
    by_cases hb : p b
    · rw [List.dropWhile_cons, if_pos hb] at hne ⊢
      rw [ih hne]
      have htl : tl ≠ [] := by
        intro h
        subst h
        simp [List.dropWhile] at hne
      cases tl with
      | nil => exact absurd rfl htl
      | cons d ds => simp [List.getLast?_cons_cons]
    · rw [List.dropWhile_cons, if_neg hb]

theorem jsTrim_idem (s : JStr) : jsTrim (jsTrim s) = jsTrim s := by
  unfold jsTrim
  set t := s.dropWhile isJsWs with ht
  set u := t.reverse.dropWhile isJsWs with hu
  have step1 : u.reverse.dropWhile isJsWs = u.reverse := by
    cases hur : u.reverse with
    | nil => simp
    | cons c r =>
      have hune : u ≠ [] := by
        intro h
        rw [h] at hur
        simp at hur
      have htrne : t.reverse ≠ [] := by
        intro h
        rw [hu, h] at hune
        simp [List.dropWhile] at hune
      have htne : t ≠ [] := by
        intro h
        rw [h] at htrne
        simp at htrne
      obtain ⟨c', t', ht'⟩ := List.exists_cons_of_ne_nil htne
      have hc' : isJsWs c' = false := head_dropWhile_false isJsWs s c' t' (ht ▸ ht')
      have hlast : u.getLast? = some c' := by
        rw [hu, getLast?_dropWhile isJsWs t.reverse (hu ▸ hune),
          List.getLast?_reverse, ht', List.head?_cons]
      have hhead : u.reverse.head? = some c := by rw [hur, List.head?_cons]
      have hceq : c = c' := by
        rw [List.head?_reverse] at hhead
        rw [hlast] at hhead
        exact (Option.some_inj.mp hhead).symm
      rw [List.dropWhile_cons, hceq, hc']
      simp
  rw [step1, List.reverse_reverse]
  rw [show u.dropWhile isJsWs = u from hu ▸ dropWhile_dropWhile isJsWs t.reverse]

-- ============================================================
-- Lemmas: the Rule Scanner phases only add findings
-- ============================================================

theorem stWrite_read (σ : PatState) (i v : Nat) : stWrite σ i v i = v := by
  simp [stWrite]

theorem runCommonPat_mem (text : JStr) (acc : List JStr × PatState) (p : GPat)
    (x : JStr) (h : x ∈ acc.1) : x ∈ (runCommonPat text acc p).1 := by
  simp only [runCommonPat]
  exact mem_foldl_of_mem _ (fun f m y hy => mem_sAdd_of_mem f y (jsTrim m) hy)
    _ acc.1 x h

theorem runNamePat_mem (text : JStr) (acc : List JStr × PatState) (p : GPat)
    (x : JStr) (h : x ∈ acc.1) : x ∈ (runNamePat text acc p).1 := by
  simp only [runNamePat]
  refine mem_foldl_of_mem _ ?_ _ acc.1 x h
  intro f name y hy
  by_cases hc : name ≠ [] ∧ 3 < name.length ∧ isCommonWord name = false
  · rw [if_pos hc]
    exact mem_sAdd_of_mem f y (jsTrim name) hy
  · rw [if_neg hc]
    exact hy

theorem runPresetPat_mem (text : JStr) (acc : List JStr × PatState) (p : GPat)
    (x : JStr) (h : x ∈ acc.1) : x ∈ (runPresetPat text acc p).1 := by
  simp only [runPresetPat]
  refine mem_foldl_of_mem _ ?_ _ acc.1 x h
  intro f m y hy
  by_cases hc : 3 ≤ m.length
  · rw [if_pos hc]
    exact mem_sAdd_of_mem f y (jsTrim m) hy
  · rw [if_neg hc]
    exact hy

theorem kwStep_mem (text kw : JStr) (f : List JStr) (idx : Nat) (x : JStr)
    (h : x ∈ f) : x ∈ kwStep text kw f idx := by
  unfold kwStep
  cases hvc : valueCapture ((text.drop idx).take 100) with
  | none => exact h
  | some v0 =>
    show x ∈ if 2 < (jsTrim v0).length ∧ toLowerJ (jsTrim v0) ≠ toLowerJ kw ∧
        isCommonWord (jsTrim v0) = false then sAdd f (jsTrim v0) else f
    by_cases hc : 2 < (jsTrim v0).length ∧ toLowerJ (jsTrim v0) ≠ toLowerJ kw ∧
        isCommonWord (jsTrim v0) = false
    · rw [if_pos hc]
      exact mem_sAdd_of_mem f x (jsTrim v0) h
    · rw [if_neg hc]
      exact h

theorem runKeyword_mem (text : JStr) (f : List JStr) (kw x : JStr)
    (h : x ∈ f) : x ∈ runKeyword text f kw := by
  unfold runKeyword
  exact mem_foldl_of_mem _ (fun g idx y hy => kwStep_mem text kw g idx y hy)
    _ f x h

theorem runCustomKw_mem (text : JStr) (f : List JStr) (kw x : JStr)
    (h : x ∈ f) : x ∈ runCustomKw text f kw := by
  unfold runCustomKw
  by_cases hc : jsTrim kw ≠ [] ∧ includesJ (toLowerJ text) (toLowerJ kw) = true
  · rw [if_pos hc]
    exact mem_foldl_of_mem _
      (fun g idx y hy => mem_sAdd_of_mem g y ((text.drop idx).take kw.length) hy)
      _ f x h
  · rw [if_neg hc]
    exact h

theorem runPreset_mem (env : IntelEnv) (text : JStr)
    (acc : List JStr × PatState) (pid : JStr) (x : JStr) (h : x ∈ acc.1) :
    x ∈ (runPreset env text acc pid).1 := by
  unfold runPreset
  cases henv : env.presets pid with
  | none => exact h
  | some preset =>
    have h1 : x ∈ (preset.patterns.foldl (runPresetPat text) acc).1 :=
      fst_mem_foldl_pair (runPresetPat text)
        (fun a q y hy => runPresetPat_mem text a q y hy) preset.patterns acc x h
    exact mem_foldl_of_mem (runKeyword text)
      (fun g k y hy => runKeyword_mem text g k y hy) preset.keywords _ x h1

-- ============================================================
-- Lemmas: the Rule Scanner's findings ignore the incoming pattern state
-- ============================================================

theorem runCommonPat_fst_congr (text : JStr) (acc acc' : List JStr × PatState)
    (p : GPat) (h : acc.1 = acc'.1) :
    (runCommonPat text acc p).1 = (runCommonPat text acc' p).1 := by
  simp only [runCommonPat, stWrite_read]
  rw [h]

theorem runNamePat_fst_congr (text : JStr) (acc acc' : List JStr × PatState)
    (p : GPat) (h : acc.1 = acc'.1) :
    (runNamePat text acc p).1 = (runNamePat text acc' p).1 := by
  simp only [runNamePat, stWrite_read]
  rw [h]

theorem runPresetPat_fst_congr (text : JStr) (acc acc' : List JStr × PatState)
    (p : GPat) (h : acc.1 = acc'.1) :
    (runPresetPat text acc p).1 = (runPresetPat text acc' p).1 := by
  simp only [runPresetPat, stWrite_read]
  rw [h]

theorem runPreset_fst_congr (env : IntelEnv) (text : JStr)
    (acc acc' : List JStr × PatState) (pid : JStr) (h : acc.1 = acc'.1) :
    (runPreset env text acc pid).1 = (runPreset env text acc' pid).1 := by
  unfold runPreset
  cases henv : env.presets pid with
  | none => exact h
  | some preset =>
    have hX := foldl_pair_fst_congr (runPresetPat text)
      (fun a a' q hq => runPresetPat_fst_congr text a a' q hq)
      preset.patterns acc acc' h
    simp only [hX]

theorem scanWithIntel_fst_state_indep (env : IntelEnv) (text : JStr)
    (ps ks : List JStr) (σ σ' : PatState) :
    (scanWithIntel env text ps ks σ).1 = (scanWithIntel env text ps ks σ').1 := by
  simp only [scanWithIntel]
  have h1 := foldl_pair_fst_congr (runCommonPat text)
    (fun a a' q hq => runCommonPat_fst_congr text a a' q hq)
    env.commonPatterns ([], σ) ([], σ') rfl
  have h2 := foldl_pair_fst_congr (runNamePat text)
    (fun a a' q hq => runNamePat_fst_congr text a a' q hq)
    env.namePatterns _ _ h1
  have h3 := foldl_pair_fst_congr (runPreset env text)
    (fun a a' q hq => runPreset_fst_congr env text a a' q hq)
    ps _ _ h2
  rw [h3]

-- ============================================================
-- C6: keyword-context extraction
-- ============================================================

/-- C6 (confirmed): for an active preset keyword, every case-insensitive
occurrence of the keyword in the text is processed — the scanner takes the
next 100 characters, runs the value-extraction pattern on them, and the
captured, trimmed value is in the scan output provided it is longer than
two characters, differs (case-insensitively) from the keyword, and is not a
stop word.  Instantiated at `"Account Number: 1234567890, Date: ..."` by the
witness, yielding the candidate `"1234567890"`. -/
theorem c6_keyword_context (env : IntelEnv) (text : JStr)
    (activePresets customKeywords : List JStr) (σ : PatState)
    (pid : JStr) (preset : IntelPreset) (kw : JStr) (i : Nat) (v0 : JStr)
    (hpid : pid ∈ activePresets) (hpreset : env.presets pid = some preset)
    (hkw : kw ∈ preset.keywords) (hkne : kw ≠ [])
    (hocc : matchesAt (toLowerJ kw) (toLowerJ text) i = true)
    (hcap : valueCapture ((text.drop i).take 100) = some v0)
    (hlen : 2 < (jsTrim v0).length)
    (hnkw : toLowerJ (jsTrim v0) ≠ toLowerJ kw)
    (hcw : isCommonWord (jsTrim v0) = false) :
    jsTrim v0 ∈ (scanWithIntel env text activePresets customKeywords σ).1 := by
  have hkwlNe : toLowerJ kw ≠ [] := by
    intro hk
    exact hkne (List.map_eq_nil_iff.mp hk)
  have hocc' : i ∈ kwOccurrences (toLowerJ text) (toLowerJ kw) :=
    mem_kwOccurrences _ _ i hkwlNe hocc
  have hv : ∀ f, jsTrim v0 ∈ kwStep text kw f i := by
    intro f
    unfold kwStep
    rw [hcap]
    show jsTrim v0 ∈ if 2 < (jsTrim v0).length ∧
        toLowerJ (jsTrim v0) ≠ toLowerJ kw ∧ isCommonWord (jsTrim v0) = false
      then sAdd f (jsTrim v0) else f
    rw [if_pos ⟨hlen, hnkw, hcw⟩]
    exact mem_sAdd_self f (jsTrim v0)
  have h1 : ∀ f, jsTrim v0 ∈ runKeyword text f kw := by
    intro f
    unfold runKeyword
    exact mem_foldl_intro (kwStep text kw)
      (fun g idx y hy => kwStep_mem text kw g idx y hy) _ i (jsTrim v0) hocc' hv f
  have h2 : ∀ f, jsTrim v0 ∈ preset.keywords.foldl (runKeyword text) f := by
    intro f
    exact mem_foldl_intro (runKeyword text)
      (fun g k y hy => runKeyword_mem text g k y hy) _ kw (jsTrim v0) hkw h1 f
  have h3 : ∀ acc, jsTrim v0 ∈ (runPreset env text acc pid).1 := by
    intro acc
    unfold runPreset
    rw [hpreset]
    exact h2 _
  have h4 : ∀ acc, jsTrim v0 ∈ (activePresets.foldl (runPreset env text) acc).1 := by
    intro acc
    exact fst_mem_foldl_pair_intro (runPreset env text)
      (fun a q y hy => runPreset_mem env text a q y hy) activePresets pid
      (jsTrim v0) hpid h3 acc
  simp only [scanWithIntel]
  refine List.mem_filter.mpr ⟨?_, ?_⟩
  · exact mem_foldl_of_mem (runCustomKw text)
      (fun g k y hy => runCustomKw_mem text g k y hy) customKeywords _ _ (h4 _)
  · rw [jsTrim_idem]
    simp only [decide_eq_true_eq]
    omega

/-- Witness for C6: the spec's own example — the bank-statement keyword
`"account number"` against `"Account Number: 1234567890, Date: ..."` yields
the candidate `"1234567890"`. -/
theorem c6_keyword_context_witness :
    (matchesAt (toLowerJ (js "account number"))
      (toLowerJ (js "Account Number: 1234567890, Date: 01/02")) 0 = true) ∧
    (valueCapture (((js "Account Number: 1234567890, Date: 01/02").drop 0).take 100) =
      some (js "1234567890")) ∧
    jsTrim (js "1234567890") ∈
      (scanWithIntel envEx (js "Account Number: 1234567890, Date: 01/02")
        [js "bank-statement"] [] patStateZero).1 :=
  ⟨by decide, by decide,
   c6_keyword_context envEx (js "Account Number: 1234567890, Date: 01/02")
     [js "bank-statement"] [] patStateZero (js "bank-statement")
     { patterns := [], keywords := [js "account number"] }
     (js "account number") 0 (js "1234567890")
     (by decide) rfl (by decide) (by decide) (by decide) (by decide)
     (by decide) (by decide) (by decide)⟩

-- ============================================================
-- C7: malformed configuration is non-fatal
-- ============================================================

/-- C7 (confirmed): the Rule Scanner is a total function (the embedding
returns a value on every input, matching "never throws"); a preset id not
in the Pattern Library contributes nothing — removing it from the active
list leaves the scan result unchanged — and an empty or whitespace-only
custom keyword is skipped silently. -/
theorem c7_malformed_config :
    (∀ (env : IntelEnv) (text : JStr) (ps1 ps2 : List JStr) (pid : JStr)
        (ks : List JStr) (σ : PatState), env.presets pid = none →
      scanWithIntel env text (ps1 ++ pid :: ps2) ks σ =
        scanWithIntel env text (ps1 ++ ps2) ks σ) ∧
    (∀ (env : IntelEnv) (text : JStr) (ps ks1 ks2 : List JStr) (kw : JStr)
        (σ : PatState), jsTrim kw = [] →
      scanWithIntel env text ps (ks1 ++ kw :: ks2) σ =
        scanWithIntel env text ps (ks1 ++ ks2) σ) := by
  constructor
  · intro env text ps1 ps2 pid ks σ h
    have hstep : ∀ acc, runPreset env text acc pid = acc := by
      intro acc
      unfold runPreset
      rw [h]
    simp only [scanWithIntel, List.foldl_append, List.foldl_cons, hstep]
  · intro env text ps ks1 ks2 kw σ h
    have hstep : ∀ f, runCustomKw text f kw = f := by
      intro f
      unfold runCustomKw
      rw [if_neg]
      intro hc
      exact hc.1 h
    simp only [scanWithIntel, List.foldl_append, List.foldl_cons, hstep]

/-- Witness for C7: on a concrete fixture, scanning with the unknown preset
id `"nope"` equals scanning without it, and the whitespace-only custom
keyword `"  "` is skipped. -/
theorem c7_malformed_config_witness :
    (envEx.presets (js "nope") = none ∧
     scanWithIntel envEx (js "some text") [js "nope", js "bank-statement"] []
         patStateZero =
       scanWithIntel envEx (js "some text") [js "bank-statement"] [] patStateZero) ∧
    (jsTrim (js "  ") = [] ∧
     scanWithIntel envEx (js "some text") [] [js "  "] patStateZero =
       scanWithIntel envEx (js "some text") [] [] patStateZero) :=
  ⟨⟨rfl, c7_malformed_config.1 envEx (js "some text") [] [js "bank-statement"]
      (js "nope") [] patStateZero rfl⟩,
   ⟨by decide, c7_malformed_config.2 envEx (js "some text") [] [] []
      (js "  ") patStateZero (by decide)⟩⟩

-- ============================================================
-- C8: Rule Scanner determinism / purity
-- ============================================================

/-- C8 (confirmed): with the module-level patterns' mutable last-match
positions modelled as an explicit state, the scanner's findings do not
depend on the incoming state (every read happens after the scanner's own
reset to 0), so two calls on the same text, preset ids and custom keywords
return equal findings, and a call's result does not depend on any earlier
call. -/
theorem c8_scanner_pure :
    (∀ (env : IntelEnv) (text : JStr) (ps ks : List JStr) (σ σ' : PatState),
      (scanWithIntel env text ps ks σ).1 = (scanWithIntel env text ps ks σ').1) ∧
    (∀ (env : IntelEnv) (text : JStr) (ps ks : List JStr) (σ : PatState),
      (scanWithIntel env text ps ks ((scanWithIntel env text ps ks σ).2)).1 =
        (scanWithIntel env text ps ks σ).1) :=
  ⟨fun env text ps ks σ σ' => scanWithIntel_fst_state_indep env text ps ks σ σ',
   fun env text ps ks σ =>
     scanWithIntel_fst_state_indep env text ps ks
       ((scanWithIntel env text ps ks σ).2) σ⟩
